import Mathlib

/-!
Shallow embedding of `exe-unit/src/network.rs` (yagna): the length-prefixed
frame codec (`write_prefix`, `read_prefix`, `take_next`, `RxBuffer::process`
with its draining `RxIterator`), the `DeploymentNetwork → Network` conversion,
the `Endpoint::connect` dispatch, the read-side stream step of
`Endpoint::connect_to_socket`, and `gsb_endpoint`.

Bytes are modelled as `Nat` values; a well-formed byte is `< 256`.  The wire
prefix is a 2-byte native-endian `u16`; the supported targets are
little-endian, so the prefix bytes are `[len % 256, len / 256]`.
-/

/-- `PREFIX_SIZE`: `size_of::<u16>()`, the number of length-prefix bytes. -/
def PREFIX_SIZE : Nat := 2

/-- `u16::to_ne_bytes` (little-endian target) of a value already reduced
mod 2^16: the two prefix bytes, low byte first. -/
def u16ToNeBytes (v : Nat) : List Nat :=
  [v % 256, v / 256]

/-- `u16::from_ne_bytes` (little-endian target) of two bytes. -/
def u16FromNeBytes (b0 b1 : Nat) : Nat :=
  b0 + 256 * b1

/-- `write_prefix(dst)`: prepends `u16::to_ne_bytes(dst.len() as u16)` to the
payload.  The `as u16` cast truncates the length mod 2^16; the function is
total and never reports an error. -/
def write_prefix (dst : List Nat) : List Nat :=
  u16ToNeBytes (dst.length % 65536) ++ dst

/-- `read_prefix(src)`: `None` when fewer than `PREFIX_SIZE` bytes are
buffered, otherwise the `u16` read from the first two bytes (the prefix is
not consumed). -/
def read_prefix : List Nat → Option Nat
  | b0 :: b1 :: _ => some (u16FromNeBytes b0 b1)
  | _ => none

/-- `take_next(src, len)`: when the buffer holds at least `PREFIX_SIZE + len`
bytes, consume the prefix and exactly `len` payload bytes, returning the
message together with the remaining buffer; otherwise `None` and the buffer
is untouched. -/
def take_next (src : List Nat) (len : Nat) : Option (List Nat × List Nat) :=
  if PREFIX_SIZE + len ≤ src.length then
    some (((src.drop PREFIX_SIZE).take len, (src.drop PREFIX_SIZE).drop len))
  else
    none

/-- `RxIterator::next`: read the prefix; when present, try to take the next
complete message.  `None` either way otherwise, leaving the buffer intact. -/
def rx_next (src : List Nat) : Option (List Nat × List Nat) :=
  match read_prefix src with
  | some len => take_next src len
  | none => none

/-- Fuel-indexed exhaustion of the `RxIterator`: each step of
`RxIterator::next` consumes at least `PREFIX_SIZE` bytes, so a fuel of
`src.length` is always sufficient (`rx_drain` below instantiates it so). -/
def rx_drain_fuel : Nat → List Nat → List (List Nat) × List Nat
  | 0, src => ([], src)
  | fuel + 1, src =>
    match rx_next src with
    | some (msg, rest) =>
      let r := rx_drain_fuel fuel rest
      (msg :: r.1, r.2)
    | none => ([], src)

/-- Driving the `RxIterator` of one decode pass to exhaustion: the ordered
complete messages it yields and the residual buffer contents. -/
def rx_drain (src : List Nat) : List (List Nat) × List Nat :=
  rx_drain_fuel src.length src

/-- `RxBuffer::process(received)` followed by draining the returned iterator:
extends the buffered residue with the received chunk, then yields every
complete message; returns the yielded messages and the new buffer residue. -/
def process (buffer received : List Nat) : List (List Nat) × List Nat :=
  rx_drain (buffer ++ received)

/-- Feeding a sequence of received chunks through one `RxBuffer`, draining
after each chunk: all messages yielded in order, and the final residue. -/
def process_all (buffer : List Nat) : List (List Nat) → List (List Nat) × List Nat
  | [] => ([], buffer)
  | c :: cs =>
    let p := process buffer c
    let q := process_all p.2 cs
    (p.1 ++ q.1, q.2)

/-! Basic shape lemmas for one `RxIterator::next` step. -/

theorem rx_next_eq_some {src msg rest : List Nat}
    (h : rx_next src = some (msg, rest)) :
    ∃ b0 b1 tail, src = b0 :: b1 :: tail ∧
      u16FromNeBytes b0 b1 ≤ tail.length ∧
      msg = tail.take (u16FromNeBytes b0 b1) ∧
      rest = tail.drop (u16FromNeBytes b0 b1) := by
  match hs : src with
  | [] => simp [rx_next, read_prefix] at h
  | [b] => simp [rx_next, read_prefix] at h
  | b0 :: b1 :: tail =>
    refine ⟨b0, b1, tail, rfl, ?_⟩
    simp only [rx_next, read_prefix, take_next, PREFIX_SIZE] at h
    by_cases hle : 2 + u16FromNeBytes b0 b1 ≤ tail.length + 2
    · rw [if_pos (by simpa using hle)] at h
      simp only [Option.some.injEq, Prod.mk.injEq] at h
      obtain ⟨hm, hr⟩ := h
      exact ⟨by omega, by simp [← hm], by simp [← hr]⟩
    · rw [if_neg (by simpa using hle)] at h
      cases h

theorem rx_next_cons_of_le {b0 b1 : Nat} {tail : List Nat}
    (h : u16FromNeBytes b0 b1 ≤ tail.length) :
    rx_next (b0 :: b1 :: tail) =
      some (tail.take (u16FromNeBytes b0 b1), tail.drop (u16FromNeBytes b0 b1)) := by
  simp only [rx_next, read_prefix, take_next, PREFIX_SIZE, List.length_cons]
  rw [if_pos (by omega)]
  simp

theorem rx_next_cons_of_lt {b0 b1 : Nat} {tail : List Nat}
    (h : tail.length < u16FromNeBytes b0 b1) :
    rx_next (b0 :: b1 :: tail) = none := by
  simp only [rx_next, read_prefix, take_next, PREFIX_SIZE, List.length_cons]
  rw [if_neg (by omega)]

theorem rx_next_short {src : List Nat} (h : src.length < PREFIX_SIZE) :
    rx_next src = none := by
  match src with
  | [] => rfl
  | [b] => rfl
  | b0 :: b1 :: tail =>
    simp [PREFIX_SIZE] at h
    omega

theorem rx_next_length_lt {src msg rest : List Nat}
    (h : rx_next src = some (msg, rest)) : rest.length < src.length := by
  obtain ⟨b0, b1, tail, hsrc, hle, _, hrest⟩ := rx_next_eq_some h
  subst hsrc; subst hrest
  simp only [List.length_drop, List.length_cons]
  omega

/-! The fuel argument is irrelevant once it reaches the buffer length. -/

theorem rx_drain_fuel_congr :
    ∀ (fuel fuel' : Nat) (src : List Nat), src.length ≤ fuel →
      src.length ≤ fuel' → rx_drain_fuel fuel src = rx_drain_fuel fuel' src := by
  intro fuel
  induction fuel with
  | zero =>
    intro fuel' src h _
    have : src = [] := List.length_eq_zero.mp (Nat.le_zero.mp h)
    subst this
    cases fuel' with
    | zero => rfl
    | succ f => simp [rx_drain_fuel, rx_next, read_prefix]
  | succ f ih =>
    intro fuel' src h h'
    cases fuel' with
    | zero =>
      have : src = [] := List.length_eq_zero.mp (Nat.le_zero.mp h')
      subst this
      simp [rx_drain_fuel, rx_next, read_prefix]
    | succ f' =>
      simp only [rx_drain_fuel]
      cases hn : rx_next src with
      | none => rfl
      | some p =>
        obtain ⟨msg, rest⟩ := p
        have hlt := rx_next_length_lt hn
        show (msg :: (rx_drain_fuel f rest).1, (rx_drain_fuel f rest).2)
          = (msg :: (rx_drain_fuel f' rest).1, (rx_drain_fuel f' rest).2)
        rw [ih f' rest (by omega) (by omega)]

/-- Unfolding `rx_drain` when one more message is available. -/
theorem rx_drain_eq_some {src msg rest : List Nat}
    (h : rx_next src = some (msg, rest)) :
    rx_drain src = (msg :: (rx_drain rest).1, (rx_drain rest).2) := by
  have hlt := rx_next_length_lt h
  obtain ⟨k, hk⟩ : ∃ k, src.length = k + 1 := ⟨src.length - 1, by omega⟩
  have h2 : rx_drain_fuel k rest = rx_drain_fuel rest.length rest :=
    rx_drain_fuel_congr k rest.length rest (by omega) (Nat.le_refl _)
  unfold rx_drain
  rw [hk]
  simp [rx_drain_fuel, h, h2]

/-- Unfolding `rx_drain` when no complete message is buffered. -/
theorem rx_drain_eq_none {src : List Nat} (h : rx_next src = none) :
    rx_drain src = ([], src) := by
  rw [rx_drain]
  cases hl : src.length with
  | zero => simp [rx_drain_fuel]
  | succ n => simp [rx_drain_fuel, h]

/-! One `RxIterator::next` step is unaffected by bytes appended after the
frame it consumes. -/

theorem rx_next_append {src msg rest : List Nat} (e : List Nat)
    (h : rx_next src = some (msg, rest)) :
    rx_next (src ++ e) = some (msg, rest ++ e) := by
  obtain ⟨b0, b1, tail, hsrc, hle, hmsg, hrest⟩ := rx_next_eq_some h
  subst hsrc
  have h1 : (tail ++ e).take (u16FromNeBytes b0 b1) = tail.take (u16FromNeBytes b0 b1) :=
    List.take_append_of_le_length hle
  have h2 : (tail ++ e).drop (u16FromNeBytes b0 b1) = tail.drop (u16FromNeBytes b0 b1) ++ e :=
    List.drop_append_of_le_length hle
  have := @rx_next_cons_of_le b0 b1 (tail ++ e)
    (by simp only [List.length_append]; omega)
  rw [List.cons_append, List.cons_append, this, h1, h2, hmsg, hrest]

theorem rx_drain_append_aux : ∀ (n : Nat) (src : List Nat), src.length ≤ n →
    ∀ e : List Nat,
      rx_drain (src ++ e) =
        ((rx_drain src).1 ++ (rx_drain ((rx_drain src).2 ++ e)).1,
          (rx_drain ((rx_drain src).2 ++ e)).2) := by
  intro n
  induction n using Nat.strong_induction_on with
  | _ n ih =>
    intro src hn e
    cases hx : rx_next src with
    | some p =>
      obtain ⟨msg, rest⟩ := p
      have hlt := rx_next_length_lt hx
      rw [rx_drain_eq_some hx, rx_drain_eq_some (rx_next_append e hx),
        ih rest.length (by omega) rest (Nat.le_refl _) e]
      simp
    | none =>
      rw [rx_drain_eq_none hx]
      simp

/-- A decode pass over `src ++ e` first yields everything a pass over `src`
yields, then continues as a pass over the residue of `src` extended by `e`. -/
theorem rx_drain_append (src e : List Nat) :
    rx_drain (src ++ e) =
      ((rx_drain src).1 ++ (rx_drain ((rx_drain src).2 ++ e)).1,
        (rx_drain ((rx_drain src).2 ++ e)).2) :=
  rx_drain_append_aux src.length src (Nat.le_refl _) e

theorem rx_drain_residue_next_aux : ∀ (n : Nat) (src : List Nat), src.length ≤ n →
    rx_next (rx_drain src).2 = none := by
  intro n
  induction n using Nat.strong_induction_on with
  | _ n ih =>
    intro src hn
    cases hx : rx_next src with
    | some p =>
      obtain ⟨msg, rest⟩ := p
      have hlt := rx_next_length_lt hx
      rw [rx_drain_eq_some hx]
      exact ih rest.length (by omega) rest (Nat.le_refl _)
    | none =>
      rw [rx_drain_eq_none hx]
      exact hx

/-- After a decode pass the residue is quiescent: `RxIterator::next` on it
yields nothing. -/
theorem rx_drain_residue_next (src : List Nat) :
    rx_next (rx_drain src).2 = none :=
  rx_drain_residue_next_aux src.length src (Nat.le_refl _)

/-- Chunked delivery equals whole-stream delivery: feeding any chunk list to
a quiescent buffer yields the same messages and residue as one pass over the
buffer followed by the chunks' concatenation. -/
theorem process_all_eq_drain :
    ∀ (chunks : List (List Nat)) (buffer : List Nat), rx_next buffer = none →
      process_all buffer chunks = rx_drain (buffer ++ chunks.flatten) := by
  intro chunks
  induction chunks with
  | nil =>
    intro buffer hq
    simp only [process_all, List.flatten_nil, List.append_nil]
    rw [rx_drain_eq_none hq]
  | cons c cs ih =>
    intro buffer hq
    have hres : rx_next (rx_drain (buffer ++ c)).2 = none := rx_drain_residue_next _
    simp only [process_all, process, List.flatten_cons]
    rw [ih _ hres, ← List.append_assoc, rx_drain_append (buffer ++ c) cs.flatten]

/-- Round-trip: draining the concatenation of framed payloads (each shorter
than 2^16) recovers exactly those payloads, in order, with empty residue. -/
theorem rx_drain_roundtrip :
    ∀ ps : List (List Nat), (∀ p ∈ ps, p.length < 65536) →
      rx_drain (ps.map write_prefix).flatten = (ps, []) := by
  intro ps
  induction ps with
  | nil =>
    intro _
    simp only [List.map_nil, List.flatten_nil]
    rw [rx_drain_eq_none (by simp [rx_next, read_prefix])]
  | cons p ps ih =>
    intro hlen
    have hp : p.length < 65536 := hlen p (by simp)
    have hps : ∀ q ∈ ps, q.length < 65536 := fun q hq => hlen q (by simp [hq])
    have hfe : u16FromNeBytes (p.length % 65536 % 256) (p.length % 65536 / 256)
        = p.length := by
      simp only [u16FromNeBytes, Nat.mod_eq_of_lt hp]
      omega
    have hx : rx_next ( write_prefix p ++ (ps.map write_prefix).flatten)
        = some (p, (ps.map write_prefix).flatten) := by
      have htail : u16FromNeBytes (p.length % 65536 % 256) (p.length % 65536 / 256)
          ≤ (p ++ (ps.map write_prefix).flatten).length := by
        rw [hfe]
        simp
      simp only [ write_prefix, u16ToNeBytes, List.cons_append, List.nil_append]
      rw [rx_next_cons_of_le htail, hfe, List.take_left, List.drop_left]
    simp only [List.map_cons, List.flatten_cons]
    rw [rx_drain_eq_some hx, ih hps]

theorem rx_drain_conserves_aux : ∀ (n : Nat) (src : List Nat), src.length ≤ n →
    (∀ b ∈ src, b < 256) →
    src = ((rx_drain src).1.map write_prefix).flatten ++ (rx_drain src).2 := by
  intro n
  induction n using Nat.strong_induction_on with
  | _ n ih =>
    intro src hn hbytes
    cases hx : rx_next src with
    | some p =>
      obtain ⟨msg, rest⟩ := p
      obtain ⟨b0, b1, tail, hsrc, hle, hmsg, hrest⟩ := rx_next_eq_some hx
      have hlt := rx_next_length_lt hx
      have hb0 : b0 < 256 := hbytes b0 (by simp [hsrc])
      have hb1 : b1 < 256 := hbytes b1 (by simp [hsrc])
      have hlen : u16FromNeBytes b0 b1 < 65536 := by
        simp only [u16FromNeBytes]
        omega
      have hmlen : msg.length = u16FromNeBytes b0 b1 := by
        rw [hmsg, List.length_take]
        omega
      have hwp : write_prefix msg = b0 :: b1 :: msg := by
        simp only [ write_prefix, u16ToNeBytes, hmlen, u16FromNeBytes,
          List.cons_append, List.nil_append]
        have e0 : (b0 + 256 * b1) % 65536 % 256 = b0 := by omega
        have e1 : (b0 + 256 * b1) % 65536 / 256 = b1 := by omega
        rw [e0, e1]
      have hrestbytes : ∀ b ∈ rest, b < 256 := by
        intro b hb
        rw [hrest] at hb
        refine hbytes b ?_
        rw [hsrc]
        exact List.mem_cons_of_mem _ (List.mem_cons_of_mem _ (List.mem_of_mem_drop hb))
      have hihr := ih rest.length (by omega) rest (Nat.le_refl _) hrestbytes
      rw [rx_drain_eq_some hx]
      simp only [List.map_cons, List.flatten_cons, hwp]
      rw [hsrc, List.cons_append, List.cons_append, List.append_assoc, ← hihr]
      simp [hmsg, hrest]
    | none =>
      rw [rx_drain_eq_none hx]
      simp

/-- Byte conservation across one decode pass on a well-formed byte stream:
the drained source equals the re-framed yielded messages followed by the
residue. -/
theorem rx_drain_conserves (src : List Nat) (hbytes : ∀ b ∈ src, b < 256) :
    src = ((rx_drain src).1.map write_prefix).flatten ++ (rx_drain src).2 :=
  rx_drain_conserves_aux src.length src (Nat.le_refl _) hbytes

/-! IPv4 / deployment-network model for `TryFrom<&DeploymentNetwork> for
Network`. -/

/-- `ipnet::Ipv4Net`: a CIDR network, as the representative 32-bit address
and the prefix length. -/
structure Ipv4Net where
  addr : Nat
  prefix_len : Nat
deriving DecidableEq

/-- `Ipv4Net::netmask()`: the high `prefix_len` bits set. -/
def netmask (n : Ipv4Net) : Nat :=
  2 ^ 32 - 2 ^ (32 - n.prefix_len)

/-- `Ipv4Net::network()`: the representative address with its host bits
cleared. -/
def network_addr (n : Ipv4Net) : Nat :=
  n.addr / 2 ^ (32 - n.prefix_len) * 2 ^ (32 - n.prefix_len)

/-- `Ipv4Net::broadcast()`: the last address of the network. -/
def broadcast_addr (n : Ipv4Net) : Nat :=
  network_addr n + 2 ^ (32 - n.prefix_len) - 1

/-- `Ipv4Net::hosts()` (ipnet): the inclusive range of usable host
addresses; for prefix lengths below 31 the network and broadcast addresses
are excluded. -/
def hosts (n : Ipv4Net) : List Nat :=
  let lo := if n.prefix_len < 31 then network_addr n + 1 else network_addr n
  let hi := if n.prefix_len < 31 then broadcast_addr n - 1 else broadcast_addr n
  List.range' lo (hi + 1 - lo)

/-- `Ipv4Addr` display: dotted-quad rendering of a 32-bit address. -/
def ipv4_repr (a : Nat) : String :=
  toString (a / 16777216 % 256) ++ "." ++ toString (a / 65536 % 256) ++ "."
    ++ toString (a / 256 % 256) ++ "." ++ toString (a % 256)

/-- Modelled from the spec: `DeploymentNetwork` (exe-unit deployment state,
not among the sources here) — the agreed network in CIDR form together with
this node's assigned IP, exactly the two fields the conversion reads. -/
structure DeploymentNetwork where
  network : Ipv4Net
  node_ip : Nat

/-- `ya_utils_networking::vpn::Error`, restricted to the variant this
conversion can produce. -/
inductive NetError where
  | NetAddrTaken (ip : Nat)
deriving DecidableEq

/-- `ya_runtime_api::server::Network`: the network description reported to
the runtime, all fields rendered as strings. -/
structure NetworkDescription where
  addr : String
  gateway : String
  mask : String
  if_addr : String
deriving DecidableEq

/-- `TryFrom<&DeploymentNetwork> for Network`: report the CIDR address and
netmask, pick as gateway the first host address distinct from the CIDR's
representative address (error `NetAddrTaken` when none exists), and report
the node's assigned IP. -/
def network_try_from (net : DeploymentNetwork) : Except NetError NetworkDescription :=
  let ip := net.network.addr
  let mask := netmask net.network
  match (hosts net.network).find? (fun h => h != ip) with
  | some gateway =>
    Except.ok { addr := ipv4_repr ip, gateway := ipv4_repr gateway,
                mask := ipv4_repr mask, if_addr := ipv4_repr net.node_ip }
  | none => Except.error (NetError.NetAddrTaken ip)

/-! Endpoint connection and the read-side stream of `connect_to_socket`. -/

/-- Modelled from the spec: `ya_runtime_api::deploy::ContainerEndpoint` (not
among the sources here) — a tagged variant over transport kinds, of which
only the unix socket path is supported by `Endpoint::connect`. -/
inductive ContainerEndpoint where
  | Socket (path : String)
  | UdpDatagram (addr : String)
  | TcpListen (addr : String)
  | TcpStream (addr : String)
deriving DecidableEq

/-- `crate::error::Error`, restricted to the shapes `Endpoint::connect`
produces: the unsupported-endpoint rejection (carrying the offending
endpoint, which the code formats into the message) or a socket-level
connection failure from `connect_to_socket`. -/
inductive ConnectError where
  | unsupportedEndpoint (ep : ContainerEndpoint)
  | socketFailure (msg : String)
deriving DecidableEq

/-- `Endpoint::connect`: dispatch over the endpoint kind.  Only
`ContainerEndpoint::Socket` reaches `connect_to_socket` (abstracted as the
parameter `sock`, since it performs socket I/O); every other kind fails with
the unsupported-endpoint error. -/
def endpoint_connect (sock : String → Except ConnectError Unit) :
    ContainerEndpoint → Except ConnectError Unit
  | ContainerEndpoint.Socket path => sock path
  | ep => Except.error (ConnectError.unsupportedEndpoint ep)

/-- Outcome of one `read` call on the sandboxed unit's socket: `Ok(n)` with
`n` bytes placed at the front of the read buffer (`n = 0` meaning end of
stream), or an I/O error. -/
inductive ReadOutcome where
  | ok (n : Nat)
  | ioError (e : String)
deriving DecidableEq

/-- One step of the `futures::stream::unfold` read loop in
`connect_to_socket`, given the buffer contents `buf` and the outcome of the
`read` call: `none` ends the stream (no further reads are attempted), while
`some item` yields `item` and keeps the stream alive, so the next poll
issues another read.  `Ok(0)` ends the stream; `Ok(n)` yields the first `n`
buffer bytes; `Err(e)` yields the error as a stream item and continues. -/
def read_stream_step (buf : List Nat) : ReadOutcome → Option (Except String (List Nat))
  | ReadOutcome.ok 0 => none
  | ReadOutcome.ok n => some (Except.ok (buf.take n))
  | ReadOutcome.ioError e => some (Except.error e)

/-! Bus endpoint naming. -/

/-- `DuoEndpoint<T>`: paired reliable (tcp) and unreliable (udp) transport
identities for one remote node on one network. -/
structure DuoEndpoint (T : Type) where
  tcp : T
  udp : T
deriving DecidableEq

/-- `typed::service(addr)`: a bus endpoint handle addressed by the service
path `addr`. -/
structure GsbEndpoint where
  addr : String
deriving DecidableEq

/-- `gsb_endpoint(node_id, net_id)`: the bus endpoint pair of a remote node
on a network, built with `format!` over the two ids. -/
def gsb_endpoint (node_id net_id : String) : DuoEndpoint GsbEndpoint :=
  { tcp := { addr := "/net/" ++ node_id ++ "/vpn/" ++ net_id },
    udp := { addr := "/udp/net/" ++ node_id ++ "/vpn/" ++ net_id ++ "/raw" } }

/-! Claim theorems. -/

/-- C1: for every finite sequence of payloads each shorter than 2^16, framing
each with `write_prefix` and feeding the concatenation to the decode pipeline
under any in-order splitting into chunks yields exactly the original payloads
in order with empty residue, and equals decoding the whole stream in a single
call (in particular a single payload, including the empty one, round-trips to
exactly itself). -/
theorem frame_codec_roundtrip_any_chunking (ps chunks : List (List Nat))
    (hlen : ∀ p ∈ ps, p.length < 65536)
    (hsplit : chunks.flatten = (ps.map write_prefix).flatten) :
    process_all [] chunks = (ps, []) ∧
      process [] (ps.map write_prefix).flatten = (ps, []) := by
  have hrt := rx_drain_roundtrip ps hlen
  constructor
  · rw [process_all_eq_drain chunks [] rfl]
    simp only [List.nil_append]
    rw [hsplit, hrt]
  · simp only [process, List.nil_append]
    exact hrt

theorem frame_codec_roundtrip_any_chunking_witness :
    (∀ p ∈ [([] : List Nat)], p.length < 65536) ∧
      process_all [] [[0, 0]] = ([[]], []) :=
  ⟨by decide,
    (frame_codec_roundtrip_any_chunking [[]] [[0, 0]] (by decide) (by decide)).1⟩

/-- C2 counterexample: on a payload of length 2^16 the encode half does not
fail; `write_prefix` truncates the length with `as u16` and emits the prefix
bytes `[0, 0]`, so the emitted prefix holds 0, not the payload length. -/
theorem write_prefix_no_failure_at_65536 :
    write_prefix (List.replicate 65536 0) = 0 :: 0 :: List.replicate 65536 0 ∧
      read_prefix ( write_prefix (List.replicate 65536 0)) = some 0 ∧
      (List.replicate 65536 (0 : Nat)).length = 65536 := by
  have hlen : (List.replicate 65536 (0 : Nat)).length = 65536 :=
    List.length_replicate _ _
  have hwp : write_prefix (List.replicate 65536 0) = 0 :: 0 :: List.replicate 65536 0 := by
    unfold write_prefix
    rw [hlen]
    norm_num [u16ToNeBytes]
  refine ⟨hwp, ?_, hlen⟩
  rw [hwp]
  rfl

/-- C2 amended: `write_prefix` never fails; it prepends exactly a 2-byte
prefix holding the payload length reduced mod 2^16 and leaves the payload
unchanged after the prefix; for every payload shorter than 2^16 the prefix
holds the exact payload length. -/
theorem write_prefix_spec (dst : List Nat) :
    ( write_prefix dst).length = dst.length + PREFIX_SIZE ∧
      ( write_prefix dst).drop PREFIX_SIZE = dst ∧
      read_prefix ( write_prefix dst) = some (dst.length % 65536) ∧
      (dst.length < 65536 → read_prefix ( write_prefix dst) = some dst.length) := by
  refine ⟨?_, ?_, ?_, ?_⟩
  · simp [ write_prefix, u16ToNeBytes, PREFIX_SIZE]
  · simp [ write_prefix, u16ToNeBytes, PREFIX_SIZE]
  · simp only [ write_prefix, u16ToNeBytes, read_prefix, u16FromNeBytes,
      List.cons_append, List.nil_append, Option.some.injEq]
    omega
  · intro h
    simp only [ write_prefix, u16ToNeBytes, read_prefix, u16FromNeBytes,
      List.cons_append, List.nil_append, Option.some.injEq]
    omega

theorem write_prefix_spec_witness :
    ([(7 : Nat)].length < 65536) ∧ read_prefix ( write_prefix [7]) = some 1 :=
  ⟨by decide, (write_prefix_spec [7]).2.2.2 (by decide)⟩

/-- C3: one decode pass first appends the chunk to the buffered residue, then:
with fewer than 2 bytes buffered it yields nothing and keeps the bytes; with a
prefix whose payload is not fully buffered it yields nothing, keeps everything
and a retry reads the same prefix; otherwise it removes the prefix and exactly
prefix-many payload bytes as one complete message and continues draining. -/
theorem decode_pass_spec (buffer received : List Nat) :
    ((buffer ++ received).length < PREFIX_SIZE →
        process buffer received = ([], buffer ++ received)) ∧
      (∀ b0 b1 rest, buffer ++ received = b0 :: b1 :: rest →
        rest.length < u16FromNeBytes b0 b1 →
          process buffer received = ([], buffer ++ received) ∧
            read_prefix (process buffer received).2 = some (u16FromNeBytes b0 b1)) ∧
      (∀ b0 b1 rest, buffer ++ received = b0 :: b1 :: rest →
        u16FromNeBytes b0 b1 ≤ rest.length →
          process buffer received =
            (rest.take (u16FromNeBytes b0 b1) ::
                (rx_drain (rest.drop (u16FromNeBytes b0 b1))).1,
              (rx_drain (rest.drop (u16FromNeBytes b0 b1))).2)) := by
  refine ⟨?_, ?_, ?_⟩
  · intro h
    unfold process
    rw [rx_drain_eq_none (rx_next_short h)]
  · intro b0 b1 rest heq hlt
    have hx : rx_next (buffer ++ received) = none := by
      rw [heq]
      exact rx_next_cons_of_lt hlt
    have hd : process buffer received = ([], buffer ++ received) := by
      unfold process
      rw [rx_drain_eq_none hx]
    refine ⟨hd, ?_⟩
    rw [hd, heq]
    rfl
  · intro b0 b1 rest heq hle
    have hx : rx_next (buffer ++ received) =
        some (rest.take (u16FromNeBytes b0 b1), rest.drop (u16FromNeBytes b0 b1)) := by
      rw [heq]
      exact rx_next_cons_of_le hle
    unfold process
    rw [rx_drain_eq_some hx]

theorem decode_pass_spec_witness :
    process [2, 0] [65, 66, 1] = ([[65, 66]], [1]) := by
  rw [(decode_pass_spec [2, 0] [65, 66, 1]).2.2 2 0 [65, 66, 1] rfl (by decide)]
  decide

/-- C4: after driving the iterator of any decode pass to exhaustion, the
residue never holds a complete frame: it is shorter than the 2-byte prefix,
or its prefix announces more payload bytes than remain buffered. -/
theorem residue_no_complete_frame (buffer received : List Nat) :
    (process buffer received).2.length < PREFIX_SIZE ∨
      ∃ b0 b1 rest, (process buffer received).2 = b0 :: b1 :: rest ∧
        rest.length < u16FromNeBytes b0 b1 := by
  have hq : rx_next (process buffer received).2 = none :=
    rx_drain_residue_next (buffer ++ received)
  cases hp : (process buffer received).2 with
  | nil =>
    left
    simp [PREFIX_SIZE]
  | cons b0 t =>
    cases t with
    | nil =>
      left
      simp [PREFIX_SIZE]
    | cons b1 rest =>
      right
      refine ⟨b0, b1, rest, rfl, ?_⟩
      rw [hp] at hq
      by_contra hcon
      push_neg at hcon
      rw [rx_next_cons_of_le hcon] at hq
      cases hq

/-- C5: from a fresh buffer, the raw guest bytes delivered as the two chunks
`[0x02,0x00,0x41]` then `[0x42,0x01,0x00,0x43]` yield no message on the first
pass and exactly the payloads `[0x41,0x42]` and `[0x43]`, in order, after the
second. -/
theorem scenario_two_chunks :
    (process [] [2, 0, 65]).1 = [] ∧
      process (process [] [2, 0, 65]).2 [66, 1, 0, 67] = ([[65, 66], [67]], []) ∧
      process_all [] [[2, 0, 65], [66, 1, 0, 67]] = ([[65, 66], [67]], []) := by
  decide

/-- C10: over any sequence of decode calls from an empty buffer on
well-formed byte chunks, the concatenation of everything received equals the
re-framed yielded messages, in yield order, followed by the current residue:
no byte is lost, duplicated or reordered. -/
theorem process_all_conserves (chunks : List (List Nat))
    (hbytes : ∀ c ∈ chunks, ∀ b ∈ c, b < 256) :
    chunks.flatten =
      ((process_all [] chunks).1.map write_prefix).flatten
        ++ (process_all [] chunks).2 := by
  have h1 : process_all [] chunks = rx_drain chunks.flatten := by
    have h := process_all_eq_drain chunks [] rfl
    simpa using h
  have hb : ∀ b ∈ chunks.flatten, b < 256 := by
    intro b hbm
    obtain ⟨c, hc, hbc⟩ := List.mem_flatten.mp hbm
    exact hbytes c hc b hbc
  rw [h1]
  exact rx_drain_conserves chunks.flatten hb

theorem process_all_conserves_witness :
    (∀ c ∈ [[(1 : Nat), 0, 7]], ∀ b ∈ c, b < 256) ∧
      ([[(1 : Nat), 0, 7]].flatten =
        ((process_all [] [[1, 0, 7]]).1.map write_prefix).flatten
          ++ (process_all [] [[1, 0, 7]]).2) :=
  ⟨by decide, process_all_conserves [[1, 0, 7]] (by decide)⟩

theorem hosts_find_first_distinct (net : DeploymentNetwork)
    (hp : net.network.prefix_len ≤ 31)
    (hcanon : net.network.addr = network_addr net.network) :
    (hosts net.network).find? (fun h => h != net.network.addr)
      = some (network_addr net.network + 1) := by
  simp only [hosts]
  by_cases h31 : net.network.prefix_len < 31
  · rw [if_pos h31, if_pos h31]
    have hk : 2 ≤ 32 - net.network.prefix_len := by omega
    have hsz : 4 ≤ 2 ^ (32 - net.network.prefix_len) :=
      le_trans (by norm_num) (Nat.pow_le_pow_right (by norm_num) hk)
    have harith : broadcast_addr net.network - 1 + 1 - (network_addr net.network + 1)
        = 2 ^ (32 - net.network.prefix_len) - 2 := by
      unfold broadcast_addr
      omega
    rw [harith]
    obtain ⟨m, hm⟩ : ∃ m, 2 ^ (32 - net.network.prefix_len) - 2 = m + 1 :=
      ⟨2 ^ (32 - net.network.prefix_len) - 3, by omega⟩
    rw [hm, List.range'_succ _ _ 1]
    rw [List.find?_cons_of_pos _ (by rw [hcanon]; simp)]
  · rw [if_neg h31, if_neg h31]
    have harith : broadcast_addr net.network + 1 - network_addr net.network = 2 := by
      unfold broadcast_addr
      have hk : 32 - net.network.prefix_len = 1 := by omega
      rw [hk]
      omega
    rw [harith]
    have hr2 : List.range' (network_addr net.network) 2
        = [network_addr net.network, network_addr net.network + 1] := by
      rw [List.range'_succ _ _ 1, List.range'_succ _ _ 1]
      rfl
    rw [hr2]
    rw [List.find?_cons_of_neg _ (by rw [hcanon]; simp)]
    rw [List.find?_cons_of_pos _ (by rw [hcanon]; simp)]

/-- C6: converting a deployment network whose CIDR is a canonical subnet (the
representative address is the network address, prefix length at most 31, so a
gateway exists) reports the subnet address, the netmask, the node's assigned
IP, and as gateway the subnet's first usable address — the first host address
distinct from the network address, which is never the network address
itself. -/
theorem network_try_from_gateway (net : DeploymentNetwork)
    (hp : net.network.prefix_len ≤ 31)
    (hcanon : net.network.addr = network_addr net.network) :
    network_try_from net =
      Except.ok { addr := ipv4_repr net.network.addr,
                  gateway := ipv4_repr (network_addr net.network + 1),
                  mask := ipv4_repr (netmask net.network),
                  if_addr := ipv4_repr net.node_ip } ∧
      network_addr net.network + 1 ≠ network_addr net.network := by
  refine ⟨?_, by omega⟩
  simp only [network_try_from]
  rw [hosts_find_first_distinct net hp hcanon]

theorem network_try_from_gateway_witness :
    network_try_from { network := { addr := 167772160, prefix_len := 24 },
                       node_ip := 167772162 }
      = Except.ok { addr := "10.0.0.0", gateway := "10.0.0.1",
                    mask := "255.255.255.0", if_addr := "10.0.0.2" } := by
  rw [(network_try_from_gateway
    { network := { addr := 167772160, prefix_len := 24 }, node_ip := 167772162 }
    (by decide) (by decide)).1]
  rfl

/-- C7 counterexample: after a read returning an I/O error, the unfold step of
the inbound read stream does not end the stream; it yields the error as a
stream item and keeps the stream alive, so a further read is attempted on the
next poll. -/
theorem read_stream_alive_on_io_error :
    read_stream_step [] (ReadOutcome.ioError "broken pipe") ≠ none ∧
      read_stream_step [] (ReadOutcome.ioError "broken pipe")
        = some (Except.error "broken pipe") := by
  refine ⟨?_, rfl⟩
  simp [read_stream_step]

/-- C7 amended: the inbound read stream ends — with no further reads — exactly
when a read returns zero bytes (end of stream); a read returning an I/O error
is yielded as an error item and the stream stays alive, the next poll issuing
another read; a read of n > 0 bytes yields those bytes. -/
theorem read_stream_step_spec (buf : List Nat) :
    read_stream_step buf (ReadOutcome.ok 0) = none ∧
      (∀ e, read_stream_step buf (ReadOutcome.ioError e) = some (Except.error e)) ∧
      (∀ n, 0 < n → read_stream_step buf (ReadOutcome.ok n) = some (Except.ok (buf.take n))) := by
  refine ⟨rfl, fun e => rfl, fun n hn => ?_⟩
  cases n with
  | zero => omega
  | succ m => rfl

theorem read_stream_step_spec_witness :
    (0 < 3) ∧
      read_stream_step [1, 2, 3, 4] (ReadOutcome.ok 3) = some (Except.ok [1, 2, 3]) :=
  ⟨by decide, by rw [(read_stream_step_spec [1, 2, 3, 4]).2.2 3 (by decide)]; rfl⟩

/-- C8: `Endpoint::connect` fails with the unsupported-endpoint error for
every container endpoint whose transport kind is not the unix socket path;
only the socket kind can yield a connected endpoint. -/
theorem endpoint_connect_unsupported :
    (∀ (sock : String → Except ConnectError Unit) (ep : ContainerEndpoint),
        (∀ path, ep ≠ ContainerEndpoint.Socket path) →
          endpoint_connect sock ep
            = Except.error (ConnectError.unsupportedEndpoint ep)) ∧
      (∀ (sock : String → Except ConnectError Unit) (ep : ContainerEndpoint) (u : Unit),
        endpoint_connect sock ep = Except.ok u →
          ∃ path, ep = ContainerEndpoint.Socket path) := by
  constructor
  · intro sock ep hne
    cases ep with
    | Socket path => exact absurd rfl (hne path)
    | UdpDatagram a => rfl
    | TcpListen a => rfl
    | TcpStream a => rfl
  · intro sock ep u h
    cases ep with
    | Socket path => exact ⟨path, rfl⟩
    | UdpDatagram a => simp [endpoint_connect] at h
    | TcpListen a => simp [endpoint_connect] at h
    | TcpStream a => simp [endpoint_connect] at h

theorem endpoint_connect_unsupported_witness :
    endpoint_connect (fun _ => Except.ok ()) (ContainerEndpoint.UdpDatagram "10.0.0.1:4242")
      = Except.error (ConnectError.unsupportedEndpoint
          (ContainerEndpoint.UdpDatagram "10.0.0.1:4242")) :=
  endpoint_connect_unsupported.1 _ _ (fun _ h => ContainerEndpoint.noConfusion h)

/-- C9: for every node id and network id, the bridge's bus endpoint pair is
addressed by exactly `/net/{n}/vpn/{v}` on the reliable (tcp) channel and
`/udp/net/{n}/vpn/{v}/raw` on the unreliable (udp) channel. -/
theorem gsb_endpoint_paths (node_id net_id : String) :
    (gsb_endpoint node_id net_id).tcp.addr = "/net/" ++ node_id ++ "/vpn/" ++ net_id ∧
      (gsb_endpoint node_id net_id).udp.addr
        = "/udp/net/" ++ node_id ++ "/vpn/" ++ net_id ++ "/raw" :=
  ⟨rfl, rfl⟩
